import Mathlib

/-!
Verification of the OpenSCAD-bindings core: the `CodeWriter` text emitter,
the `format_parameter` rendering rule, and the `Model` tree serializer,
shallowly embedded from `src/openscad_bindings/__init__.py`.

Python values relevant to parameter formatting are modelled by the tagged
union `Value` (booleans, integers, strings); Python exceptions raised by
`format_parameter` (IndexError on `k[0]` for an empty name, TypeError on
`v[1:]` for a non-sliceable value) are modelled by `PyError` and `Except`.
Mutation of a `CodeWriter` object is modelled by explicit state passing.
-/

/-- A Python value as it can appear as a parameter value. -/
inductive Value where
  | vbool (b : Bool)
  | vint (n : Int)
  | vstr (s : String)
deriving DecidableEq, Repr

/-- Python `str(v)` / f-string interpolation of a `Value`.
`str(True) = "True"`, `str(False) = "False"`, integers print as decimal,
strings interpolate as their own content. -/
def Value.asText : Value → String
  | .vbool true => "True"
  | .vbool false => "False"
  | .vint n => toString n
  | .vstr s => s

/-- Exceptions `format_parameter` can raise: `IndexError` from `k[0]` on an
empty name, `TypeError` from `v[1:]` on a non-subscriptable value. -/
inductive PyError where
  | indexError
  | typeError
deriving DecidableEq, Repr

/-- Python `v[1:]`: defined on strings, a `TypeError` on booleans and ints
(booleans never reach this point in `format_parameter`, the rewrite to
`'true'`/`'false'` happens first). -/
def Value.slice1 : Value → Except PyError String
  | .vstr s => .ok (s.drop 1)
  | _ => .error .typeError

/-- `format_parameter(arg)` from the source:
```
k, v = arg
if v is True:  v = 'true'
if v is False: v = 'false'
if k is not None:
    if k[0] == '_':
        k = "$" + v[1:]
return f'{k}={v}' if k else v
```
The name is `Option String` (`None` for positional parameters).  Note the
rewritten name `"$" + v[1:]` is a nonempty hence truthy string, so the
final line still renders `f'{k}={v}'` with the rewritten name. -/
def format_parameter (arg : Option String × Value) : Except PyError String :=
  let v : Value :=
    match arg.2 with
    | .vbool true => .vstr "true"
    | .vbool false => .vstr "false"
    | w => w
  match arg.1 with
  | none => .ok v.asText
  | some k =>
    if k.isEmpty then
      .error .indexError
    else if k.front = '_' then
      match v.slice1 with
      | .error e => .error e
      | .ok tail => .ok ("$" ++ tail ++ "=" ++ v.asText)
    else
      .ok (k ++ "=" ++ v.asText)

/-- Formatting every parameter of a list, left to right, stopping at the
first raised error: the combined effect of the formatting calls the
serializer's `interleave` makes on an argument list. -/
def formatAll : List (Option String × Value) → Except PyError (List String)
  | [] => .ok []
  | a :: as =>
    match format_parameter a with
    | .error e => .error e
    | .ok s =>
      match formatAll as with
      | .error e => .error e
      | .ok strs => .ok (s :: strs)

/-- The `CodeWriter` object's state: the `_source` fragment list, the
`_buffer` fragment list (unused by `Model` serialization) and the current
`_indent` depth. -/
structure CodeWriter where
  _source : List String
  _buffer : List String
  _indent : Nat
deriving DecidableEq, Repr

/-- `CodeWriter()`: fresh writer with empty buffers and indent 0. -/
def CodeWriter.init : CodeWriter := ⟨[], [], 0⟩

/-- `write(text)`: append a fragment verbatim to `_source`. -/
def CodeWriter.write (w : CodeWriter) (text : String) : CodeWriter :=
  { w with _source := w._source ++ [text] }

/-- The indent prefix `"    " * n`. -/
def indentStr (n : Nat) : String :=
  String.join (List.replicate n "    ")

/-- `fill(text)`: `write("\n" + "    " * _indent + text)`. -/
def CodeWriter.fill (w : CodeWriter) (text : String) : CodeWriter :=
  w.write ("\n" ++ indentStr w._indent ++ text)

/-- `source` property: `"".join(str(x) for x in _source)` (all fragments in
this model are already strings). -/
def CodeWriter.source (w : CodeWriter) : String :=
  String.join w._source

/-- The `for x in seq: inter(); f(x)` loop inside `interleave`, generic in
the state the two closures mutate and in the effect they may raise. -/
def interRest {m : Type → Type} [Monad m] {σ α : Type}
    (inter : σ → m σ) (f : σ → α → m σ) : σ → List α → m σ
  | s, [] => pure s
  | s, x :: xs => do
    let s ← inter s
    let s ← f s x
    interRest inter f s xs

/-- `interleave(inter, f, seq)` from the source, generic in the state the
two closures mutate and in the effect they may raise:
```
seq = iter(seq)
try: f(next(seq))
except StopIteration: pass
else:
    for x in seq:
        inter()
        f(x)
```
One forward pass: the head is consumed once by `f`, then each remaining
item is consumed once by the loop `interRest` (`inter` before `f`). -/
def interleave {m : Type → Type} [Monad m] {σ α : Type}
    (inter : σ → m σ) (f : σ → α → m σ) : σ → List α → m σ
  | s, [] => pure s
  | s, x :: xs => do
    let s ← f s x
    interRest inter f s xs

/-- The argument-list emission of `_write_scad_code`:
`writer.interleave(lambda: writer.write(', '), lambda arg: writer.write(format_parameter(arg)), self.args)`. -/
def writeArgs (w : CodeWriter) (args : List (Option String × Value)) :
    Except PyError CodeWriter :=
  interleave (fun w => pure (w.write ", "))
    (fun w arg => (format_parameter arg).map w.write) w args

/-- `block()` from the source: a `@contextmanager` generator with no
`try`/`finally` — `write("{")`, increment `_indent`, `yield`, decrement
`_indent`, `fill("}")`.  The body is modelled as returning its final
writer state together with the exception it raised, if any; when the body
raises, the exception is thrown into the generator at the `yield` point
and propagates, so the decrement and the closing `fill` are skipped. -/
def CodeWriter.block (w : CodeWriter)
    (body : CodeWriter → CodeWriter × Option PyError) :
    CodeWriter × Option PyError :=
  let w := w.write "\x7b"
  let w := { w with _indent := w._indent + 1 }
  match body w with
  | (w, some e) => (w, some e)
  | (w, none) =>
    let w := { w with _indent := w._indent - 1 }
    (w.fill "\x7d", none)

/-- A `Model` node: `command_name`, the ordered parameter list `args`
(`[(None, a) for a in args] + list(kwargs.items())`), and optional child
`operands`. -/
inductive Model where
  | mk (command_name : String) (args : List (Option String × Value))
      (operands : Option (List Model))

/-- Field accessor `command_name`. -/
def Model.command_name : Model → String
  | .mk n _ _ => n

/-- Field accessor `args`. -/
def Model.args : Model → List (Option String × Value)
  | .mk _ a _ => a

/-- Field accessor `operands`. -/
def Model.operands : Model → Option (List Model)
  | .mk _ _ o => o

mutual
/-- `Model._write_scad_code(writer)` from the source; the
`with writer.delimit('(', ')')` and `with writer.block()` context managers
are inlined as their enter/exit emissions (`delimit` writes `start`, then
its body runs, then it writes `end`; `block` writes `"{"`, increments the
indent, runs its body, decrements the indent and fills `"}"` — raised
exceptions short-circuit, as in `CodeWriter.block`). -/
def Model.writeScad : Model → CodeWriter → Except PyError CodeWriter
  | .mk name args ops, w =>
    let w := w.fill name
    let w := w.write "("
    match writeArgs w args with
    | .error e => .error e
    | .ok w =>
      let w := w.write ")"
      match ops with
      | none => .ok (w.write ";")
      | some l =>
        let w := w.write "\x7b"
        let w := { w with _indent := w._indent + 1 }
        match Model.writeScadList l w with
        | .error e => .error e
        | .ok w =>
          let w := { w with _indent := w._indent - 1 }
          .ok (w.fill "\x7d")

/-- `for operand in self.operands: operand._write_scad_code(writer)`. -/
def Model.writeScadList : List Model → CodeWriter → Except PyError CodeWriter
  | [], w => .ok w
  | x :: xs, w =>
    match Model.writeScad x w with
    | .error e => .error e
    | .ok w => Model.writeScadList xs w
end

/-- `Model.__str__`: serialize into a fresh writer and drop the first
character (`c.source[1:]`), i.e. the leading newline `fill` prepends. -/
def Model.toScad (m : Model) : Except PyError String :=
  (m.writeScad CodeWriter.init).map (fun c => c.source.drop 1)

/-- `Model(command_name, *args, operands=..., **kwargs)`: positional
arguments become `(None, value)` pairs, keyword items follow in order. -/
def Model.make (command_name : String) (args : List Value)
    (kwargs : List (String × Value)) (operands : Option (List Model)) : Model :=
  .mk command_name
    (args.map (fun a => ((none : Option String), a)) ++
      kwargs.map (fun p => (some p.1, p.2)))
    operands

/-- `union(models, *args, **kwargs)`. -/
def union (models : List Model) (args : List Value)
    (kwargs : List (String × Value)) : Model :=
  Model.make "union" args kwargs (some models)

/-- `intersection(models, *args, **kwargs)`. -/
def intersection (models : List Model) (args : List Value)
    (kwargs : List (String × Value)) : Model :=
  Model.make "intersection" args kwargs (some models)

/-- `difference(models, *args, **kwargs)`. -/
def difference (models : List Model) (args : List Value)
    (kwargs : List (String × Value)) : Model :=
  Model.make "difference" args kwargs (some models)

/-- `minkowski(models, *args, **kwargs)`. -/
def minkowski (models : List Model) (args : List Value)
    (kwargs : List (String × Value)) : Model :=
  Model.make "minkowski" args kwargs (some models)

/-- `hull(model, *args, **kwargs)`. -/
def hull (model : Model) (args : List Value)
    (kwargs : List (String × Value)) : Model :=
  Model.make "hull" args kwargs (some [model])

/-- `cube(*args, **kwargs)`. -/
def cube (args : List Value) (kwargs : List (String × Value)) : Model :=
  Model.make "cube" args kwargs none

/-- `sphere(*args, **kwargs)`. -/
def sphere (args : List Value) (kwargs : List (String × Value)) : Model :=
  Model.make "sphere" args kwargs none

/-- `Model.__add__`: `self + other = minkowski([self, other])`. -/
def Model.add (a b : Model) : Model :=
  minkowski [a, b] [] []

/-- An emission event, for observing the order in which `interleave`
invokes its two closures: one event per emitted item and one per
separator invocation. -/
inductive EmitEv (α : Type) where
  | item (a : α)
  | sep
deriving DecidableEq, Repr

/-- A separator closure that records its invocation in the trace. -/
def traceSep {α : Type} (t : List (EmitEv α)) : Id (List (EmitEv α)) :=
  pure (t ++ [EmitEv.sep])

/-- An item-emission closure that records the item in the trace. -/
def traceItem {α : Type} (t : List (EmitEv α)) (a : α) : Id (List (EmitEv α)) :=
  pure (t ++ [EmitEv.item a])

/-- Recognizer for separator events. -/
def isSepEv {α : Type} : EmitEv α → Bool
  | .sep => true
  | .item _ => false

/-- Recognizer for item events. -/
def isItemEv {α : Type} : EmitEv α → Bool
  | .sep => false
  | .item _ => true

/-- The trace a separator-then-item pair contributes for each list element:
`[sep, y₁, sep, y₂, …]`; interleaving a nonempty list emits the head and
then this trace of the tail. -/
def sepPairs {β : Type} (sep : β) : List β → List β
  | [] => []
  | y :: ys => sep :: y :: sepPairs sep ys

theorem intersperse_eq_cons_sepPairs {β : Type} (sep x : β) (xs : List β) :
    List.intersperse sep (x :: xs) = x :: sepPairs sep xs := by
  induction xs generalizing x with
  | nil => rfl
  | cons y ys ih =>
    rw [List.intersperse_cons_cons, ih]
    rfl

theorem strJoin_cons (a : String) (l : List String) :
    String.join (a :: l) = a ++ String.join l := by
  have key : ∀ (l : List String) (a : String),
      List.foldl (fun r s => r ++ s) a l
        = a ++ List.foldl (fun r s => r ++ s) "" l := by
    intro l
    induction l with
    | nil => intro a; simp
    | cons x xs ih =>
      intro a
      simp only [List.foldl_cons]
      rw [ih (a ++ x), ih ("" ++ x)]
      simp [String.append_assoc]
  simp only [String.join, List.foldl_cons]
  rw [key l ("" ++ a)]
  simp

theorem strJoin_append (l₁ l₂ : List String) :
    String.join (l₁ ++ l₂) = String.join l₁ ++ String.join l₂ := by
  induction l₁ with
  | nil => simp [String.join]
  | cons a l ih =>
    rw [List.cons_append, strJoin_cons, strJoin_cons, ih, String.append_assoc]

theorem drop_one_newline (s : String) : ("\n" ++ s).drop 1 = s := by
  apply String.ext
  simp

theorem exceptMap_ok {ε α β : Type} (f : α → β) (a : α) :
    Except.map f (Except.ok a : Except ε α) = .ok (f a) := rfl

theorem exceptMap_error {ε α β : Type} (f : α → β) (e : ε) :
    Except.map f (Except.error e : Except ε α) = .error e := rfl

theorem exceptBind_ok {ε α β : Type} (a : α) (f : α → Except ε β) :
    (Except.ok a : Except ε α) >>= f = f a := rfl

theorem exceptBind_error {ε α β : Type} (e : ε) (f : α → Except ε β) :
    (Except.error e : Except ε α) >>= f = .error e := rfl

theorem interRest_args_eq (xs : List (Option String × Value)) (w : CodeWriter) :
    interRest (fun (s : CodeWriter) => pure (s.write ", "))
      (fun s arg => (format_parameter arg).map s.write) w xs
      = match formatAll xs with
        | .error e => .error e
        | .ok strs =>
          .ok { w with _source := w._source ++ sepPairs ", " strs } := by
  induction xs generalizing w with
  | nil =>
    simp only [interRest, formatAll, sepPairs, List.append_nil]
    rfl
  | cons y ys ih =>
    cases hy : format_parameter y with
    | error e =>
      simp only [interRest, pure_bind, hy, exceptMap_error, exceptBind_error,
        formatAll]
    | ok str =>
      simp only [interRest, pure_bind, hy, exceptMap_ok, exceptBind_ok]
      rw [ih]
      cases hys : formatAll ys with
      | error e => simp [formatAll, hy, hys]
      | ok strs =>
        simp [formatAll, hy, hys, CodeWriter.write, sepPairs, List.append_assoc]

/-- `writeArgs` appends exactly the comma-interleaved formatted parameter
texts (or raises the first formatting error) and touches nothing else in
the writer. -/
theorem writeArgs_eq (w : CodeWriter) (args : List (Option String × Value)) :
    writeArgs w args
      = match formatAll args with
        | .error e => .error e
        | .ok strs =>
          .ok { w with _source := w._source ++ List.intersperse ", " strs } := by
  cases args with
  | nil =>
    simp only [writeArgs, interleave, formatAll, List.intersperse,
      List.append_nil]
    rfl
  | cons x xs =>
    cases hx : format_parameter x with
    | error e =>
      simp only [writeArgs, interleave, hx, exceptMap_error, exceptBind_error,
        formatAll]
    | ok str =>
      simp only [writeArgs, interleave, hx, exceptMap_ok, exceptBind_ok]
      rw [interRest_args_eq]
      cases hxs : formatAll xs with
      | error e => simp [formatAll, hx, hxs]
      | ok strs =>
        simp [formatAll, hx, hxs, CodeWriter.write,
          intersperse_eq_cons_sepPairs, List.append_assoc]


mutual
/-- A successful serialization appends a fragment list determined only by
the node and the writer's indent depth, restores the indent depth and
leaves the buffer untouched; the same fragments are appended from any
other writer at the same depth. -/
theorem writeScad_frags (m : Model) (w w' : CodeWriter)
    (h : Model.writeScad m w = .ok w') :
    ∃ frags, w' = ⟨w._source ++ frags, w._buffer, w._indent⟩ ∧
      ∀ w2 : CodeWriter, w2._indent = w._indent →
        Model.writeScad m w2 = .ok ⟨w2._source ++ frags, w2._buffer, w2._indent⟩ := by
  cases m with
  | mk name args ops =>
    cases ops with
    | none =>
      rw [Model.writeScad, writeArgs_eq] at h
      cases hargs : formatAll args with
      | error e =>
        rw [hargs] at h
        exact Except.noConfusion h
      | ok strs =>
        rw [hargs] at h
        dsimp only at h
        injection h with h
        subst h
        refine ⟨["\n" ++ indentStr w._indent ++ name, "("]
          ++ List.intersperse ", " strs ++ [")", ";"], ?_, ?_⟩
        · simp [CodeWriter.fill, CodeWriter.write, List.append_assoc]
        · intro w2 h2
          rw [Model.writeScad, writeArgs_eq, hargs]
          dsimp only
          simp [CodeWriter.fill, CodeWriter.write, h2, List.append_assoc]
    | some l =>
      rw [Model.writeScad, writeArgs_eq] at h
      cases hargs : formatAll args with
      | error e =>
        rw [hargs] at h
        exact Except.noConfusion h
      | ok strs =>
        rw [hargs] at h
        dsimp only at h
        split at h
        next e heq => exact Except.noConfusion h
        next wl heq =>
          obtain ⟨fragsL, hwl, htransL⟩ := writeScadList_frags l _ wl heq
          injection h with h
          subst h
          refine ⟨["\n" ++ indentStr w._indent ++ name, "("]
            ++ List.intersperse ", " strs ++ [")", "\x7b"] ++ fragsL
            ++ ["\n" ++ indentStr w._indent ++ "\x7d"], ?_, ?_⟩
          · rw [hwl]
            simp [CodeWriter.fill, CodeWriter.write, List.append_assoc]
          · intro w2 h2
            rw [Model.writeScad, writeArgs_eq, hargs]
            dsimp only
            rw [htransL]
            · dsimp only
              simp [CodeWriter.fill, CodeWriter.write, h2, List.append_assoc]
            · simp [CodeWriter.fill, CodeWriter.write, h2]

/-- Companion of `writeScad_frags` for operand lists. -/
theorem writeScadList_frags (l : List Model) (w w' : CodeWriter)
    (h : Model.writeScadList l w = .ok w') :
    ∃ frags, w' = ⟨w._source ++ frags, w._buffer, w._indent⟩ ∧
      ∀ w2 : CodeWriter, w2._indent = w._indent →
        Model.writeScadList l w2 = .ok ⟨w2._source ++ frags, w2._buffer, w2._indent⟩ := by
  cases l with
  | nil =>
    rw [Model.writeScadList] at h
    injection h with h
    subst h
    refine ⟨[], by simp, ?_⟩
    intro w2 h2
    rw [Model.writeScadList]
    simp
  | cons x xs =>
    rw [Model.writeScadList] at h
    split at h
    next e heq => exact Except.noConfusion h
    next wx heq =>
      obtain ⟨fragsX, hwx, htransX⟩ := writeScad_frags x w wx heq
      obtain ⟨fragsXs, hw', htransXs⟩ := writeScadList_frags xs wx w' h
      refine ⟨fragsX ++ fragsXs, ?_, ?_⟩
      · rw [hw', hwx]
        simp [List.append_assoc]
      · intro w2 h2
        rw [Model.writeScadList, htransX w2 h2]
        dsimp only
        rw [htransXs ⟨w2._source ++ fragsX, w2._buffer, w2._indent⟩
          (by rw [hwx]; simp [h2])]
        simp [List.append_assoc]
end

theorem isEmpty_false_of_ne (s : String) (h : s ≠ "") : s.isEmpty = false := by
  rw [Bool.eq_false_iff]
  simp [String.isEmpty_iff, h]

/-- The first fragment a serialization appends is the `fill`ed command
name line: newline, indent prefix at the writer's depth, command name. -/
theorem writeScad_head (m : Model) (w w' : CodeWriter)
    (h : m.writeScad w = .ok w') :
    ∃ tail, w'._source
        = w._source ++ ("\n" ++ indentStr w._indent ++ m.command_name) :: tail := by
  cases m with
  | mk name args ops =>
    cases ops with
    | none =>
      rw [Model.writeScad, writeArgs_eq] at h
      cases hargs : formatAll args with
      | error e =>
        rw [hargs] at h
        exact Except.noConfusion h
      | ok strs =>
        rw [hargs] at h
        dsimp only at h
        injection h with h
        subst h
        refine ⟨"(" :: (List.intersperse ", " strs ++ [")", ";"]), ?_⟩
        simp [CodeWriter.fill, CodeWriter.write, Model.command_name,
          List.append_assoc]
    | some l =>
      rw [Model.writeScad, writeArgs_eq] at h
      cases hargs : formatAll args with
      | error e =>
        rw [hargs] at h
        exact Except.noConfusion h
      | ok strs =>
        rw [hargs] at h
        dsimp only at h
        split at h
        next e heq => exact Except.noConfusion h
        next wl heq =>
          obtain ⟨fragsL, hwl, _⟩ := writeScadList_frags l _ wl heq
          injection h with h
          subst h
          refine ⟨"(" :: (List.intersperse ", " strs ++ [")", "\x7b"] ++ fragsL
            ++ ["\n" ++ indentStr w._indent ++ "\x7d"]), ?_⟩
          rw [hwl]
          simp [CodeWriter.fill, CodeWriter.write, Model.command_name,
            List.append_assoc]

/-- C1 counterexample: for the sigil-named parameter `('_x', '_foo')`,
`format_parameter` renders `"$foo=_foo"` — a name=value pair with the
rewritten name — not the bare special-variable reference
`"$" + value[1:] = "$foo"` the claim describes: the rewritten name
`"$" + v[1:]` is truthy, so the final line still emits `f'{k}={v}'`. -/
theorem sigil_value_not_bare_reference :
    format_parameter (some "_x", .vstr "_foo") = .ok "$foo=_foo"
    ∧ format_parameter (some "_x", .vstr "_foo")
        ≠ .ok ("$" ++ "_foo".drop 1) := by
  refine ⟨rfl, ?_⟩
  intro hcontra
  have h2 : ("$foo=_foo" : String) = "$" ++ "_foo".drop 1 := by injection hcontra
  exact absurd h2 (by decide)

/-- C1 amended: a parameter whose name is present, nonempty and begins
with `'_'`, with a string value `s`, renders as the name=value pair
`"$" ++ s[1:] ++ "=" ++ s`: the name is rewritten to `"$" + value[1:]`
(discarding the original name), but the output is still a name=value
pair, the full value following `=`. -/
theorem sigil_param_renders_rewritten_pair (nm s : String)
    (hne : nm ≠ "") (hsig : nm.front = '_') :
    format_parameter (some nm, .vstr s) = .ok ("$" ++ s.drop 1 ++ "=" ++ s) := by
  simp [format_parameter, Value.slice1, Value.asText,
    isEmpty_false_of_ne nm hne, hsig]

/-- C1 witness: the amended rendering at `('_x', '_foo')`. -/
theorem sigil_param_renders_rewritten_pair_witness :
    format_parameter (some "_x", .vstr "_foo")
      = .ok ("$" ++ "_foo".drop 1 ++ "=" ++ "_foo") :=
  sigil_param_renders_rewritten_pair "_x" "_foo" (by decide) (by decide)

/-- C5 counterexample: `block` is a generator-based context manager with
no `try`/`finally`, so when the emission inside the block raises — here
the genuine emission `write(format_parameter(('_a', 3)))`, which raises
`TypeError` from `v[1:]` — the decrement and the closing `fill('}')` are
skipped: the writer is left at depth 1, not its pre-block depth 0, and no
closing brace is emitted. -/
theorem block_unrestored_on_raise :
    (CodeWriter.init.block (fun c =>
        match format_parameter (some "_a", Value.vint 3) with
        | .error e => (c, some e)
        | .ok s => (c.write s, none))).2 = some PyError.typeError
    ∧ (CodeWriter.init.block (fun c =>
        match format_parameter (some "_a", Value.vint 3) with
        | .error e => (c, some e)
        | .ok s => (c.write s, none))).1._indent = 1
    ∧ CodeWriter.init._indent = 0 :=
  ⟨rfl, rfl, rfl⟩

/-- C5 amended: whenever the body of a `block` completes normally (and,
as every emission does, only appends fragments and preserves the depth),
the indent depth returns to its pre-block value, restored exactly once,
and the closing `"}"` is emitted by `fill` on its own line at the
pre-increment depth. -/
theorem block_restores_depth_on_normal_exit
    (w : CodeWriter) (body : CodeWriter → CodeWriter × Option PyError)
    (hbody : ∀ c c' : CodeWriter, body c = (c', none) →
      c'._indent = c._indent ∧ ∃ mid, c'._source = c._source ++ mid)
    (w' : CodeWriter) (h : w.block body = (w', none)) :
    w'._indent = w._indent
    ∧ ∃ mid, w'._source
        = w._source ++ ["\x7b"] ++ mid ++ ["\n" ++ indentStr w._indent ++ "\x7d"] := by
  rw [CodeWriter.block] at h
  split at h
  next c' e hb => exact Prod.noConfusion h (fun _ hnone => Option.noConfusion hnone)
  next c' hb =>
    obtain ⟨hind, mid, hsrc⟩ := hbody _ _ hb
    injection h with h _
    subst h
    constructor
    · simp [CodeWriter.fill, CodeWriter.write, hind, CodeWriter.write]
    · refine ⟨mid, ?_⟩
      rw [CodeWriter.fill, CodeWriter.write]
      simp only [hind]
      rw [hsrc]
      simp [CodeWriter.write, List.append_assoc, hind]

/-- C5 witness: a block whose body emits one fragment and completes
normally, at depth 0. -/
theorem block_restores_depth_witness :
    (∀ c c' : CodeWriter, (c.write "x", (none : Option PyError)) = (c', none) →
      c'._indent = c._indent ∧ ∃ mid, c'._source = c._source ++ mid)
    ∧ ((⟨["\x7b", "x", "\n" ++ indentStr 0 ++ "\x7d"], [], 0⟩ : CodeWriter)._indent
          = CodeWriter.init._indent
      ∧ ∃ mid, (⟨["\x7b", "x", "\n" ++ indentStr 0 ++ "\x7d"], [], 0⟩ : CodeWriter)._source
          = CodeWriter.init._source ++ ["\x7b"] ++ mid
            ++ ["\n" ++ indentStr CodeWriter.init._indent ++ "\x7d"]) := by
  have hbody : ∀ c c' : CodeWriter, (c.write "x", (none : Option PyError)) = (c', none) →
      c'._indent = c._indent ∧ ∃ mid, c'._source = c._source ++ mid := by
    intro c c' h
    injection h with h1 _
    subst h1
    exact ⟨rfl, ["x"], rfl⟩
  exact ⟨hbody,
    block_restores_depth_on_normal_exit CodeWriter.init _ hbody _ rfl⟩

/-- C6: boolean parameter values are rewritten to the string `'true'` /
`'false'` before any other formatting, so they render exactly as those
literal tokens would: alone when positional, after `name=` when named; in
particular `cube(10, center=True)` serializes to
`"cube(10, center=true);"`. -/
theorem bool_values_render_true_false :
    (∀ k : Option String,
      format_parameter (k, .vbool true) = format_parameter (k, .vstr "true")
      ∧ format_parameter (k, .vbool false) = format_parameter (k, .vstr "false"))
    ∧ format_parameter (none, .vbool true) = .ok "true"
    ∧ format_parameter (none, .vbool false) = .ok "false"
    ∧ format_parameter (some "center", .vbool true) = .ok "center=true"
    ∧ (cube [.vint 10] [("center", .vbool true)]).toScad
        = .ok "cube(10, center=true);" :=
  ⟨fun _ => ⟨rfl, rfl⟩, rfl, rfl, rfl, rfl⟩

/-- C9: `a + b` builds a `minkowski` node whose operands are exactly
`[a, b]` in that order, with an empty parameter list. -/
theorem add_builds_minkowski_pair (a b : Model) :
    Model.add a b = Model.mk "minkowski" [] (some [a, b])
    ∧ (Model.add a b).command_name = "minkowski"
    ∧ (Model.add a b).operands = some [a, b]
    ∧ (Model.add a b).args = [] :=
  ⟨rfl, rfl, rfl, rfl⟩

/-- C10: `format_parameter` succeeds for every positional parameter, for
every named parameter with a nonempty non-sigil name, and for a sigil
(`'_'`-prefixed) name when the value is a string or a boolean (booleans
are first rewritten to `'true'`/`'false'`); it raises `IndexError` on an
empty name (`k[0]`) and `TypeError` on a sigil name with an integer value
(`v[1:]`). -/
theorem format_parameter_totality_and_errors :
    (∀ v : Value, ∃ out, format_parameter (none, v) = .ok out)
    ∧ (∀ (nm : String) (v : Value), nm ≠ "" → nm.front ≠ '_' →
        ∃ out, format_parameter (some nm, v) = .ok out)
    ∧ (∀ (nm s : String), nm ≠ "" → nm.front = '_' →
        ∃ out, format_parameter (some nm, .vstr s) = .ok out)
    ∧ (∀ (nm : String) (b : Bool), nm ≠ "" → nm.front = '_' →
        ∃ out, format_parameter (some nm, .vbool b) = .ok out)
    ∧ (∀ v : Value, format_parameter (some "", v) = .error .indexError)
    ∧ (∀ (nm : String) (n : Int), nm ≠ "" → nm.front = '_' →
        format_parameter (some nm, .vint n) = .error .typeError) := by
  refine ⟨?_, ?_, ?_, ?_, ?_, ?_⟩
  · intro v
    cases v with
    | vbool b => cases b <;> exact ⟨_, rfl⟩
    | vint n => exact ⟨_, rfl⟩
    | vstr s => exact ⟨_, rfl⟩
  · intro nm v h1 h2
    cases v with
    | vbool b =>
      cases b with
      | true =>
        exact ⟨nm ++ "=" ++ "true", by simp [format_parameter, Value.asText,
          isEmpty_false_of_ne nm h1, h2]⟩
      | false =>
        exact ⟨nm ++ "=" ++ "false", by simp [format_parameter, Value.asText,
          isEmpty_false_of_ne nm h1, h2]⟩
    | vint n =>
      exact ⟨nm ++ "=" ++ toString n, by simp [format_parameter, Value.asText,
        isEmpty_false_of_ne nm h1, h2]⟩
    | vstr s =>
      exact ⟨nm ++ "=" ++ s, by simp [format_parameter, Value.asText,
        isEmpty_false_of_ne nm h1, h2]⟩
  · intro nm s h1 h2
    exact ⟨"$" ++ s.drop 1 ++ "=" ++ s,
      by simp [format_parameter, Value.slice1, Value.asText,
        isEmpty_false_of_ne nm h1, h2]⟩
  · intro nm b h1 h2
    cases b with
    | true =>
      exact ⟨"$" ++ "true".drop 1 ++ "=" ++ "true",
        by simp [format_parameter, Value.slice1, Value.asText,
          isEmpty_false_of_ne nm h1, h2]⟩
    | false =>
      exact ⟨"$" ++ "false".drop 1 ++ "=" ++ "false",
        by simp [format_parameter, Value.slice1, Value.asText,
          isEmpty_false_of_ne nm h1, h2]⟩
  · intro v
    cases v with
    | vbool b => cases b <;> rfl
    | vint n => rfl
    | vstr s => rfl
  · intro nm n h1 h2
    simp [format_parameter, Value.slice1, isEmpty_false_of_ne nm h1, h2]

/-- C10 witness: each totality case and each error case at a concrete
input. -/
theorem format_parameter_totality_and_errors_witness :
    (∃ out, format_parameter (none, .vbool true) = .ok out)
    ∧ (("center" : String) ≠ "" ∧ "center".front ≠ '_'
        ∧ ∃ out, format_parameter (some "center", .vint 7) = .ok out)
    ∧ (("_x" : String) ≠ "" ∧ "_x".front = '_'
        ∧ (∃ out, format_parameter (some "_x", .vstr "abc") = .ok out)
        ∧ (∃ out, format_parameter (some "_x", .vbool false) = .ok out)
        ∧ format_parameter (some "_x", .vint 3) = .error .typeError)
    ∧ format_parameter (some "", .vint 3) = .error .indexError :=
  ⟨format_parameter_totality_and_errors.1 (.vbool true),
    ⟨by decide, by decide,
      format_parameter_totality_and_errors.2.1 "center" (.vint 7)
        (by decide) (by decide)⟩,
    ⟨by decide, by decide,
      format_parameter_totality_and_errors.2.2.1 "_x" "abc"
        (by decide) (by decide),
      format_parameter_totality_and_errors.2.2.2.1 "_x" false
        (by decide) (by decide),
      format_parameter_totality_and_errors.2.2.2.2.2 "_x" 3
        (by decide) (by decide)⟩,
    format_parameter_totality_and_errors.2.2.2.2.1 (.vint 3)⟩

theorem interRest_trace {α : Type} (xs : List α) (t : List (EmitEv α)) :
    interRest traceSep traceItem t xs
      = t ++ sepPairs EmitEv.sep (xs.map EmitEv.item) := by
  induction xs generalizing t with
  | nil => simp [interRest, sepPairs]
  | cons y ys ih =>
    simp only [interRest, traceSep, traceItem, pure_bind]
    rw [ih]
    simp [sepPairs, List.append_assoc]

theorem sepPairs_counts {α : Type} (xs : List α) :
    (sepPairs EmitEv.sep (xs.map EmitEv.item)).countP isSepEv = xs.length
    ∧ (sepPairs EmitEv.sep (xs.map EmitEv.item)).countP isItemEv = xs.length := by
  induction xs with
  | nil => simp [sepPairs]
  | cons y ys ih =>
    simp [sepPairs, List.countP_cons, isSepEv, isItemEv, ih.1, ih.2]

/-- C3: on a sequence of length N, `interleave` emits the trace
item₁, sep, item₂, sep, …, itemₙ — each item exactly once, in sequence
order, with the separator invoked exactly N − 1 times (`max(N−1, 0)` in
natural-number subtraction), none before the first item, none after the
last, none at all when N ≤ 1.  The single forward pass is visible in the
definition of `interleave`/`interRest`: the head is consumed once, then
each remaining item once, in order. -/
theorem interleave_trace_spec {α : Type} (l : List α) (t : List (EmitEv α)) :
    interleave traceSep traceItem t l
        = t ++ List.intersperse EmitEv.sep (l.map EmitEv.item)
      ∧ (List.intersperse EmitEv.sep (l.map EmitEv.item)).countP isSepEv
          = l.length - 1
      ∧ (List.intersperse EmitEv.sep (l.map EmitEv.item)).countP isItemEv
          = l.length := by
  cases l with
  | nil => simp [interleave]
  | cons x xs =>
    refine ⟨?_, ?_, ?_⟩
    · simp only [interleave, traceItem, pure_bind, List.map_cons]
      rw [interRest_trace, intersperse_eq_cons_sepPairs]
      simp [List.append_assoc]
    · rw [List.map_cons, intersperse_eq_cons_sepPairs]
      simp [List.countP_cons, isSepEv, (sepPairs_counts xs).1]
    · rw [List.map_cons, intersperse_eq_cons_sepPairs]
      simp [List.countP_cons, isItemEv, (sepPairs_counts xs).2]

theorem indentStr_zero : indentStr 0 = "" := rfl

/-- C2 counterexample: `union([])` renders `"union(){\n}"` — `block()`
writes its `"{"` immediately after the `")"` written by `delimit`, with
no intervening space — not `"union() {\n}"` as the claim states. -/
theorem union_block_renders_without_space :
    (union [] [] []).toScad = .ok "union()\x7b\n\x7d"
    ∧ (union [] [] []).toScad ≠ .ok "union() \x7b\n\x7d" := by
  refine ⟨rfl, ?_⟩
  intro hcontra
  have h2 : ("union()\x7b\n\x7d" : String) = "union() \x7b\n\x7d" := by injection hcontra
  exact absurd h2 (by decide)

/-- C2 amended: serializing a node with operands present (even an empty
list) wraps the operand serializations — rendered at indent depth exactly
one greater than the parent's — between a `"{"` fragment written directly
after the `")"` (no intervening space) and a closing `"}"` filled on its
own line at the parent's depth, with no trailing `';'`; concretely
`union([cube(1), sphere(2)])` renders
`"union(){\n    cube(1);\n    sphere(2);\n}"` and `union([])` renders
`"union(){\n}"`. -/
theorem operand_block_wraps_in_braces :
    (∀ (name : String) (args : List (Option String × Value)) (l : List Model)
        (w w' : CodeWriter),
      Model.writeScad (.mk name args (some l)) w = .ok w' →
      ∃ strs inner,
        formatAll args = .ok strs
        ∧ Model.writeScadList l ⟨[], [], w._indent + 1⟩
            = .ok ⟨inner, [], w._indent + 1⟩
        ∧ w' = ⟨w._source ++ ["\n" ++ indentStr w._indent ++ name, "("]
              ++ List.intersperse ", " strs ++ [")", "\x7b"] ++ inner
              ++ ["\n" ++ indentStr w._indent ++ "\x7d"], w._buffer, w._indent⟩)
    ∧ (union [cube [.vint 1] [], sphere [.vint 2] []] [] []).toScad
        = .ok "union()\x7b\n    cube(1);\n    sphere(2);\n\x7d"
    ∧ (union [] [] []).toScad = .ok "union()\x7b\n\x7d" := by
  refine ⟨?_, rfl, rfl⟩
  intro name args l w w' h
  rw [Model.writeScad, writeArgs_eq] at h
  cases hargs : formatAll args with
  | error e =>
    rw [hargs] at h
    exact Except.noConfusion h
  | ok strs =>
    rw [hargs] at h
    dsimp only at h
    split at h
    next e heq => exact Except.noConfusion h
    next wl heq =>
      obtain ⟨fragsL, hwl, htransL⟩ := writeScadList_frags l _ wl heq
      injection h with h
      subst h
      refine ⟨strs, fragsL, rfl, ?_, ?_⟩
      · have hcanon := htransL ⟨[], [], w._indent + 1⟩
          (by simp [CodeWriter.fill, CodeWriter.write])
        simpa using hcanon
      · rw [hwl]
        simp [CodeWriter.fill, CodeWriter.write, List.append_assoc]

/-- C4: serialization output depends only on the node and the writer's
indent depth: two runs from writers at equal depth append the same
fragment list, so two fresh writers produce byte-identical text; the
writer passed in only accumulates (its source is extended in place, its
indent and buffer are restored), and the node — a pure value consumed
read-only — is unchanged by construction of the embedding. -/
theorem serialization_deterministic_writer_accumulates
    (m : Model) (w1 w2 w1' w2' : CodeWriter)
    (hind : w1._indent = w2._indent)
    (h1 : m.writeScad w1 = .ok w1') (h2 : m.writeScad w2 = .ok w2') :
    (∃ frags, w1'._source = w1._source ++ frags
      ∧ w2'._source = w2._source ++ frags)
    ∧ w1'._indent = w1._indent ∧ w1'._buffer = w1._buffer
    ∧ w2'._indent = w2._indent ∧ w2'._buffer = w2._buffer
    ∧ (w1._source = w2._source → w1'.source = w2'.source) := by
  obtain ⟨f1, hw1, htrans⟩ := writeScad_frags m w1 w1' h1
  have h2' := htrans w2 hind.symm
  rw [h2] at h2'
  injection h2' with h2'
  refine ⟨⟨f1, by rw [hw1], by rw [h2']⟩, by rw [hw1], by rw [hw1],
    by rw [h2'], by rw [h2'], ?_⟩
  intro hsrc
  simp only [hw1, h2', CodeWriter.source, hsrc]

/-- C4 witness: `cube(1)` serialized from a fresh writer and from a
writer holding prior text at the same depth. -/
theorem serialization_deterministic_witness :
    CodeWriter.init._indent = (⟨["x"], ["y"], 0⟩ : CodeWriter)._indent
    ∧ (cube [.vint 1] []).writeScad CodeWriter.init
        = .ok ⟨["\ncube", "(", "1", ")", ";"], [], 0⟩
    ∧ (cube [.vint 1] []).writeScad ⟨["x"], ["y"], 0⟩
        = .ok ⟨["x", "\ncube", "(", "1", ")", ";"], ["y"], 0⟩
    ∧ ((∃ frags,
          (⟨["\ncube", "(", "1", ")", ";"], [], 0⟩ : CodeWriter)._source
            = CodeWriter.init._source ++ frags
          ∧ (⟨["x", "\ncube", "(", "1", ")", ";"], ["y"], 0⟩ : CodeWriter)._source
            = (⟨["x"], ["y"], 0⟩ : CodeWriter)._source ++ frags)
      ∧ (⟨["\ncube", "(", "1", ")", ";"], [], 0⟩ : CodeWriter)._indent
          = CodeWriter.init._indent
      ∧ (⟨["\ncube", "(", "1", ")", ";"], [], 0⟩ : CodeWriter)._buffer
          = CodeWriter.init._buffer
      ∧ (⟨["x", "\ncube", "(", "1", ")", ";"], ["y"], 0⟩ : CodeWriter)._indent
          = (⟨["x"], ["y"], 0⟩ : CodeWriter)._indent
      ∧ (⟨["x", "\ncube", "(", "1", ")", ";"], ["y"], 0⟩ : CodeWriter)._buffer
          = (⟨["x"], ["y"], 0⟩ : CodeWriter)._buffer
      ∧ (CodeWriter.init._source = (⟨["x"], ["y"], 0⟩ : CodeWriter)._source →
          (⟨["\ncube", "(", "1", ")", ";"], [], 0⟩ : CodeWriter).source
            = (⟨["x", "\ncube", "(", "1", ")", ";"], ["y"], 0⟩ : CodeWriter).source)) :=
  ⟨rfl, rfl, rfl,
    serialization_deterministic_writer_accumulates (cube [.vint 1] [])
      CodeWriter.init ⟨["x"], ["y"], 0⟩ _ _ rfl rfl rfl⟩

/-- C7: `__str__` returns exactly the writer's accumulated source with
the single leading newline (unconditionally prepended by the first
`fill`) removed: the full source is `"\n"` followed by the command name
and the rest, and the returned text starts with the command name, not a
blank line. -/
theorem str_strips_single_leading_newline (m : Model) (w' : CodeWriter)
    (h : m.writeScad CodeWriter.init = .ok w') :
    m.toScad = .ok (w'.source.drop 1)
    ∧ ∃ t, w'.source = "\n" ++ (m.command_name ++ t)
        ∧ m.toScad = .ok (m.command_name ++ t) := by
  have hts : m.toScad = .ok (w'.source.drop 1) := by
    rw [Model.toScad, h]
    rfl
  obtain ⟨tail, hsrc⟩ := writeScad_head m CodeWriter.init w' h
  have hsrc' : w'.source = "\n" ++ (m.command_name ++ String.join tail) := by
    rw [CodeWriter.source, hsrc]
    simp [CodeWriter.init, strJoin_cons, indentStr_zero, String.append_assoc]
  exact ⟨hts, String.join tail, hsrc',
    by rw [hts, hsrc', drop_one_newline]⟩

/-- C7 witness: `cube(1)` from a fresh writer. -/
theorem str_strips_single_leading_newline_witness :
    (cube [.vint 1] []).writeScad CodeWriter.init
        = .ok ⟨["\ncube", "(", "1", ")", ";"], [], 0⟩
    ∧ ((cube [.vint 1] []).toScad
        = .ok ((⟨["\ncube", "(", "1", ")", ";"], [], 0⟩ : CodeWriter).source.drop 1)
      ∧ ∃ t, (⟨["\ncube", "(", "1", ")", ";"], [], 0⟩ : CodeWriter).source
            = "\n" ++ ((cube [.vint 1] []).command_name ++ t)
          ∧ (cube [.vint 1] []).toScad
            = .ok ((cube [.vint 1] []).command_name ++ t)) :=
  ⟨rfl, str_strips_single_leading_newline (cube [.vint 1] []) _ rfl⟩

/-- C8: a leaf node (`operands = None`) serializes as command line,
parenthesized arguments, and a final `";"` fragment — its emitted text
ends with `';'` and no block fragments (`"{"`, `"}"`) are ever
appended. -/
theorem leaf_serialization_terminal_statement (name : String)
    (args : List (Option String × Value)) (w w' : CodeWriter)
    (h : Model.writeScad (.mk name args none) w = .ok w') :
    ∃ strs, formatAll args = .ok strs
      ∧ w' = ⟨w._source ++ ["\n" ++ indentStr w._indent ++ name, "("]
            ++ List.intersperse ", " strs ++ [")", ";"], w._buffer, w._indent⟩
      ∧ ∃ u, w'.source = u ++ ";" := by
  rw [Model.writeScad, writeArgs_eq] at h
  cases hargs : formatAll args with
  | error e =>
    rw [hargs] at h
    exact Except.noConfusion h
  | ok strs =>
    rw [hargs] at h
    dsimp only at h
    injection h with h
    have hW : w' = ⟨w._source ++ ["\n" ++ indentStr w._indent ++ name, "("]
        ++ List.intersperse ", " strs ++ [")", ";"], w._buffer, w._indent⟩ := by
      rw [← h]
      simp [CodeWriter.fill, CodeWriter.write, List.append_assoc]
    refine ⟨strs, rfl, hW,
      String.join (w._source ++ ["\n" ++ indentStr w._indent ++ name, "("]
        ++ List.intersperse ", " strs ++ [")"]), ?_⟩
    rw [hW, CodeWriter.source]
    have haux : w._source ++ ["\n" ++ indentStr w._indent ++ name, "("]
        ++ List.intersperse ", " strs ++ [")", ";"]
        = (w._source ++ ["\n" ++ indentStr w._indent ++ name, "("]
          ++ List.intersperse ", " strs ++ [")"]) ++ [";"] := by
      simp [List.append_assoc]
    rw [haux, strJoin_append]
    simp [String.join]

/-- C8 witness: the leaf `cube(1)` from a fresh writer. -/
theorem leaf_serialization_terminal_witness :
    Model.writeScad (.mk "cube" [((none : Option String), Value.vint 1)] none)
        CodeWriter.init = .ok ⟨["\ncube", "(", "1", ")", ";"], [], 0⟩
    ∧ ∃ strs, formatAll [((none : Option String), Value.vint 1)] = .ok strs
      ∧ (⟨["\ncube", "(", "1", ")", ";"], [], 0⟩ : CodeWriter)
          = ⟨CodeWriter.init._source
              ++ ["\n" ++ indentStr CodeWriter.init._indent ++ "cube", "("]
              ++ List.intersperse ", " strs ++ [")", ";"],
            CodeWriter.init._buffer, CodeWriter.init._indent⟩
      ∧ ∃ u, (⟨["\ncube", "(", "1", ")", ";"], [], 0⟩ : CodeWriter).source
          = u ++ ";" :=
  ⟨rfl, leaf_serialization_terminal_statement "cube"
    [((none : Option String), Value.vint 1)] CodeWriter.init _ rfl⟩

/-- C2 witness for the amended block-structure statement: `union([])`
from a fresh writer. -/
theorem operand_block_wraps_witness :
    Model.writeScad (.mk "union" [] (some []))
        CodeWriter.init = .ok ⟨["\nunion", "(", ")", "\x7b", "\n\x7d"], [], 0⟩
    ∧ ∃ strs inner,
        formatAll [] = .ok strs
        ∧ Model.writeScadList [] ⟨[], [], CodeWriter.init._indent + 1⟩
            = .ok ⟨inner, [], CodeWriter.init._indent + 1⟩
        ∧ (⟨["\nunion", "(", ")", "\x7b", "\n\x7d"], [], 0⟩ : CodeWriter)
            = ⟨CodeWriter.init._source
                ++ ["\n" ++ indentStr CodeWriter.init._indent ++ "union", "("]
                ++ List.intersperse ", " strs ++ [")", "\x7b"] ++ inner
                ++ ["\n" ++ indentStr CodeWriter.init._indent ++ "\x7d"],
              CodeWriter.init._buffer, CodeWriter.init._indent⟩ :=
  ⟨rfl, operand_block_wraps_in_braces.1 "union" [] [] CodeWriter.init _ rfl⟩
